import Mathlib

/-
Verification of the workspace splitter
(src/3D_combination/run_combination/1_ws_editing/splitter.cxx).

This file gives a shallow embedding of the splitter's algorithmic core:
the channel index parser (splitter::fillIndices), the rebin dispatch and
histogram rebuild in splitter::makeWorkspace, the parameter classifier
loop of splitter::makeWorkspace, the dataset rebuild
(splitter::rebuildCatData) and the formula rewriter (splitter::editRFV).

Machine strings are modelled as Lean Strings (ASCII throughout the
repository), doubles carrying event weights as rationals, the C double
to int conversion as truncation toward zero, and the fatal paths
(auxUtil::alertAndAbort, assert) as the error case of Except.
-/

namespace Splitter

/-! ## Basic string helpers (TString operations used by the splitter) -/

/-- Embedding of `TString::Contains(char)`: the expression text contains a
given character. -/
def strContainsChar (s : String) (c : Char) : Bool :=
  s.data.any (fun x => x = c)

/-- Occurrence check for a character-list pattern inside a character list,
at any position.  Used to embed `TString::Contains(const char*)`. -/
def listContainsSub (pat : List Char) : List Char → Bool
  | [] => pat.isEmpty
  | c :: cs => pat.isPrefixOf (c :: cs) || listContainsSub pat cs

/-- Embedding of `TString::Contains(const char*)`. -/
def strContainsSub (s pat : String) : Bool :=
  listContainsSub pat.data s.data

/-- One pass of `TString::ReplaceAll`: scan left to right, replace every
non-overlapping occurrence of `pat`, and continue scanning after the
replacement text (the replacement is not rescanned, exactly as
`TString::ReplaceAll` advances its search index past the inserted text).
The first argument is fuel; the initial string length is always enough
fuel because every step consumes at least one input character. -/
def replChars (pat rep : List Char) : Nat → List Char → List Char
  | 0, l => l
  | _ + 1, [] => []
  | fuel + 1, c :: cs =>
    if !pat.isEmpty && pat.isPrefixOf (c :: cs) then
      rep ++ replChars pat rep fuel (List.drop (pat.length - 1) cs)
    else
      c :: replChars pat rep fuel cs

/-- Embedding of `TString::ReplaceAll(pat, rep)`. -/
def replaceAll (s pat rep : String) : String :=
  ⟨replChars pat.data rep.data s.data.length s.data⟩

/-- Embedding of `TString::ToLower()`. -/
def strToLower (s : String) : String :=
  ⟨s.data.map Char.toLower⟩

/-- Modelled from the spec: `auxUtil::removeWhiteSpace` (its source is not
part of this repository); the spec says "Whitespace inside tokens is
stripped before parsing", so every whitespace character is removed. -/
def removeWhiteSpace (s : String) : String :=
  ⟨s.data.filter (fun c => !c.isWhitespace)⟩

/-- Split a character list at every occurrence of a separator character,
keeping empty pieces (they are filtered afterwards, matching
`TString::Tokenize`, which stores no empty tokens). -/
def splitOnChar (sep : Char) : List Char → List (List Char)
  | [] => [[]]
  | c :: cs =>
    if c = sep then
      [] :: splitOnChar sep cs
    else
      match splitOnChar sep cs with
      | [] => [[c]]
      | t :: ts => (c :: t) :: ts

/-- Embedding of `TString::Tokenize(sep)`: split on the separator and drop
empty tokens (ROOT's Tokenize never stores an empty substring). -/
def tokenizeChar (sep : Char) (s : String) : List String :=
  ((splitOnChar sep s.data).map (fun l => String.mk l)).filter
    (fun t => !t.data.isEmpty)

/-- Digit accumulator of `atoi`: consume leading decimal digits, stop at
the first non-digit. -/
def digitsToNat : List Char → Nat → Nat
  | [], acc => acc
  | c :: cs, acc =>
    if c.isDigit then digitsToNat cs (acc * 10 + (c.toNat - 48)) else acc

/-- Embedding of `TString::Atoi` (which is plain C `atoi`): an optional
sign followed by leading digits; a string with no leading digits yields 0.
Leading whitespace is already stripped by the caller. -/
def atoiChars : List Char → Int
  | '-' :: cs => -(digitsToNat cs 0 : Int)
  | '+' :: cs => (digitsToNat cs 0 : Int)
  | cs => (digitsToNat cs 0 : Int)

/-- Embedding of `TString::Atoi`. -/
def atoi (s : String) : Int :=
  atoiChars s.data

/-! ## Channel index parser (splitter::fillIndices, splitter.cxx 111-160) -/

/-- Embedding of the inclusive range loop `for (int t = int1; t <= int2;
t++) m_useIndices.push_back(t);`. -/
def intRange (lo hi : Int) : List Int :=
  (List.range (hi + 1 - lo).toNat).map (fun (k : Nat) => lo + (k : Int))

/-- Embedding of the per-token body of `splitter::fillIndices`: a token is
split on dashes; one part is a single integer (parsed by `atoi`), two
parts are an inclusive range guarded by `assert(int1 <= int2)` (modelled
as a fatal error), anything else is the fatal `Invalid syntax` abort. -/
def parseToken (tok : String) : Except String (List Int) :=
  match tokenizeChar '-' tok with
  | [j] => Except.ok [atoi j]
  | [s1, s2] =>
    if atoi s1 ≤ atoi s2 then
      Except.ok (intRange (atoi s1) (atoi s2))
    else
      Except.error "assertion failed: int1 <= int2"
  | _ => Except.error ("Invalid syntax " ++ tok)

/-- Embedding of `splitter::fillIndices` (splitter.cxx 111-160): lower the
input, return every channel index on `"all"`, otherwise strip whitespace,
split on commas and process each token in order, appending its indices. -/
def fillIndices (numBins : Nat) (indices : String) : Except String (List Int) :=
  let lower := strToLower indices
  if lower = "all" then
    Except.ok ((List.range numBins).map (fun (i : Nat) => (i : Int)))
  else
    (tokenizeChar ',' (removeWhiteSpace lower)).foldlM
      (fun acc tok => (parseToken tok).map (fun l => acc ++ l)) []

/-! ## Rebin dispatch (splitter::makeWorkspace, splitter.cxx 234-274) -/

/-- Which branch of the dataset handling a channel takes: `direct` is the
`rebuildCatData` structural copy, `rebin` is the histogram-based rebuild. -/
inductive DataPath where
  | direct : DataPath
  | rebin : DataPath
deriving DecidableEq

/-- The C++ conversion `int sumEntries = datai->sumEntries();`: a double
converted to int truncates toward zero. -/
def cppTruncToInt (q : ℚ) : Int :=
  if 0 ≤ q then Int.floor q else Int.ceil q

/-- Embedding of the dataset dispatch in `splitter::makeWorkspace`
(splitter.cxx 234-274).  With `m_reBin > 0` the code computes
`bool isBinned = (numEntries != sumEntries); isBinned += (numEntries <
m_reBin);` (bool `+=` saturates, i.e. logical or) and takes the direct
rebuild when `isBinned` holds, the histogram rebin otherwise; with rebin
disabled it always takes the direct rebuild. -/
def dataPath (reBin : Int) (numEntries : Int) (sumW : ℚ) : DataPath :=
  if 0 < reBin then
    let sumEntries : Int := cppTruncToInt sumW
    if numEntries ≠ sumEntries ∨ numEntries < reBin then
      DataPath.direct
    else
      DataPath.rebin
  else
    DataPath.direct

/-! ## Parameter classifier (splitter::makeWorkspace, splitter.cxx 195-227) -/

/-- The declared parameter sets of the original ModelConfig, as seen by the
classifier loop: the POI set, the global observable set, and the
conditional observable set, which may be absent
(`m_hasCondObs = m_mc->GetConditionalObservables() != nullptr`). -/
structure MC where
  pois : List String
  gobs : List String
  condObs : Option (List String)

/-- The role assigned to one free parameter of a channel density. -/
inductive Role where
  | poi : Role
  | gobs : Role
  | cobs : Role
  | nuis : Role
  | dropped : Role
deriving DecidableEq

/-- Embedding of the classification branches of the loop over
`indivNuis` in `splitter::makeWorkspace` (splitter.cxx 195-227): find by
name in the POI set, else in the global observable set, else (only when
conditional observables are declared) in the conditional observable set,
else a non-constant parameter is a nuisance parameter and a constant one
is silently dropped. -/
def classify (mc : MC) (name : String) (isConst : Bool) : Role :=
  if name ∈ mc.pois then Role.poi
  else if name ∈ mc.gobs then Role.gobs
  else
    match mc.condObs with
    | some cobs =>
      if name ∈ cobs then Role.cobs
      else if isConst then Role.dropped else Role.nuis
    | none => if isConst then Role.dropped else Role.nuis

/-- The four accumulating output sets `subPoi`, `subGobs`, `subCobs` and
`subNuis` of `splitter::makeWorkspace`. -/
structure RoleSets where
  subPoi : List String
  subGobs : List String
  subCobs : List String
  subNuis : List String

/-- RooArgSet::add by name: adding an already-present parameter is a
no-op (the sets deduplicate by name). -/
def addUnique (x : String) (l : List String) : List String :=
  if x ∈ l then l else l ++ [x]

/-- One iteration of the classifier loop: route the parameter into the
set selected by its classification; a dropped parameter goes nowhere. -/
def classifyStep (mc : MC) (acc : RoleSets) (p : String × Bool) : RoleSets :=
  match classify mc p.1 p.2 with
  | Role.poi => { acc with subPoi := addUnique p.1 acc.subPoi }
  | Role.gobs => { acc with subGobs := addUnique p.1 acc.subGobs }
  | Role.cobs => { acc with subCobs := addUnique p.1 acc.subCobs }
  | Role.nuis => { acc with subNuis := addUnique p.1 acc.subNuis }
  | Role.dropped => acc

/-- Embedding of the whole classifier loop over the free parameters of a
channel density (each a name together with its constancy flag). -/
def splitRoles (mc : MC) (params : List (String × Bool)) : RoleSets :=
  params.foldl (classifyStep mc) ⟨[], [], [], []⟩

/-- The accumulating set that receives parameters of a given role;
dropped parameters are accumulated nowhere. -/
def roleSet (r : Role) (acc : RoleSets) : List String :=
  match r with
  | Role.poi => acc.subPoi
  | Role.gobs => acc.subGobs
  | Role.cobs => acc.subCobs
  | Role.nuis => acc.subNuis
  | Role.dropped => []

/-! ## Formula rewriter (splitter::editRFV, splitter.cxx 480-566) -/

/-- A dependent of a RooFormulaVar: either an ordinary variable
(RooRealVar and friends) or a nested RooFormulaVar, which carries its
name, its expression text and its own dependent list.  The nested case is
detected in the source by exact type identity
(`typeid(*v) == typeid(RooFormulaVar)`). -/
inductive Arg where
  | var : String → Arg
  | fvar : String → String → List Arg → Arg

/-- GetName of a dependent. -/
def argName : Arg → String
  | Arg.var n => n
  | Arg.fvar n _ _ => n

mutual

/-- Size of a dependent tree, used to bound the recursion depth of the
rewriter. -/
def argSize : Arg → Nat
  | Arg.var _ => 1
  | Arg.fvar _ _ ds => 1 + argsSize ds

/-- Size of a dependent list. -/
def argsSize : List Arg → Nat
  | [] => 0
  | d :: ds => argSize d + argsSize ds + 1

end

/-- Embedding of the index-assignment loop of the raw-name branch
(splitter.cxx 524-532): the dependent at position `i` receives the
positional label `@i`. -/
def renamePairsFrom : Nat → List String → List (String × String)
  | _, [] => []
  | i, n :: ns => (n, "@" ++ toString i) :: renamePairsFrom (i + 1) ns

/-- The `reNameMap` lookup: `std::map` insertion overwrites, so the value
of a key is the one of its last insertion. -/
def lookupLast (m : List (String × String)) (k : String) : String :=
  m.foldl (fun acc p => if p.1 = k then p.2 else acc) ""

/-- Insertion step of the descending-length sort: place `x` before the
first element whose name is no longer than `x`'s. -/
def insertDescLen (x : String × String) :
    List (String × String) → List (String × String)
  | [] => [x]
  | y :: ys =>
    if y.1.length ≤ x.1.length then x :: y :: ys else y :: insertDescLen x ys

/-- Embedding of `TMath::Sort(num, &nameLength[0], &indice[0], true)`
(splitter.cxx 534): sort the substitutions by descending name length (the
relative order of equal lengths is unspecified in the source, which uses
`std::sort`; a stable insertion sort is one valid refinement). -/
def sortDescLen : List (String × String) → List (String × String)
  | [] => []
  | x :: xs => insertDescLen x (sortDescLen xs)

/-- Embedding of the substitution list built by the raw-name branch of
`splitter::editRFV` (splitter.cxx 518-541): pair each dependent name with
its positional label, sort by descending name length, and read each
target label back through the `reNameMap` lookup. -/
def rawSubstList (deps : List Arg) : List (String × String) :=
  let pairs := renamePairsFrom 0 (deps.map argName)
  (sortDescLen pairs).map (fun p => (p.1, lookupLast pairs p.1))

/-- Apply the substitutions in order with `TString::ReplaceAll`
(splitter.cxx 535-541). -/
def applySubsts (subs : List (String × String)) (s : String) : String :=
  subs.foldl (fun acc p => replaceAll acc p.1 p.2) s

/-- Embedding of `splitter::editRFV` (splitter.cxx 480-566), fueled so
that the nested recursion is structural.  The result is `ok none` for the
NULL "no change needed" return, `ok (some _)` for a newly built
RooFormulaVar, and `error` for the crash the source runs into when a
recursive call returns NULL: the dependent walk (splitter.cxx 549-562)
executes `varList.add(*newParg)` without any null check, dereferencing
the null pointer. -/
def editRFVGo (mode : Int) : Nat → String → String → List Arg →
    Except String (Option Arg)
  | 0, _, _, _ => Except.error "insufficient fuel"
  | fuel + 1, varName, formExpr, deps =>
    if strContainsChar formExpr '@' then
      Except.ok none
    else
      let newExprOpt : Option String :=
        if strContainsSub formExpr "x[" && strContainsSub formExpr "]" then
          if mode < 2 then none
          else some (replaceAll (replaceAll formExpr "x[" "@") "]" "")
        else
          if mode < 1 then none
          else some (applySubsts (rawSubstList deps) formExpr)
      match newExprOpt with
      | none => Except.ok none
      | some newExpr =>
        (deps.mapM (fun d =>
          match d with
          | Arg.var n => Except.ok (Arg.var n)
          | Arg.fvar n e ds =>
            match editRFVGo mode fuel n e ds with
            | Except.ok none =>
              Except.error "null dereference: varList.add applied to a NULL newParg"
            | Except.ok (some a) => Except.ok a
            | Except.error msg => Except.error msg)).map
          (fun vl => some (Arg.fvar varName newExpr vl))

/-- Wrapper fixing the fuel of `editRFVGo`; the nesting depth of the
dependent graph is bounded by `argsSize deps`, so this fuel always
suffices. -/
def editRFV (mode : Int) (varName formExpr : String) (deps : List Arg) :
    Except String (Option Arg) :=
  editRFVGo mode (argsSize deps + 1) varName formExpr deps

/-! ## Dataset rebuild (splitter::rebuildCatData, splitter.cxx 462-478) -/

/-- Summed weight of a weighted dataset (`RooAbsData::sumEntries`): the
dataset is a list of rows, each an observable record with a weight. -/
def sumWeights (d : List (α × ℚ)) : ℚ :=
  (d.map Prod.snd).sum

/-- Value of a named observable in a row (`RooArgSet` assignment matches
by name; a name absent from the row reads as 0, which never happens for
the rows the splitter visits). -/
def lookupVal (row : List (String × ℚ)) (o : String) : ℚ :=
  match row.find? (fun p => p.1 = o) with
  | some p => p.2
  | none => 0

/-- Embedding of `splitter::rebuildCatData` (splitter.cxx 462-478): one
weighted event per source event; `*indivObs = *datai->get(j)` projects the
source row onto the channel observables and `dataNew_i->add(obsAndWgt,
dataWgt)` carries the source weight forward unchanged. -/
def rebuildCatData (obsNames : List String)
    (datai : List (List (String × ℚ) × ℚ)) : List (List (String × ℚ) × ℚ) :=
  datai.map (fun row => (obsNames.map (fun o => (o, lookupVal row.1 o)), row.2))

/-! ## Histogram rebuild (splitter::makeWorkspace, splitter.cxx 246-271) -/

/-- Fixed-binning bin index of `TAxis::FindBin`, zero-based: bin `i`
holds the values `x` with `lo + i*w ≤ x < lo + (i+1)*w` where
`w = (hi-lo)/nbins`; values outside `[lo, hi)` land outside
`0 ≤ binIndex < nbins` (ROOT's under/overflow bins, which the rebuild
loop never reads). -/
def binIndex (nbins : Nat) (lo hi x : ℚ) : Int :=
  Int.floor ((x - lo) * (nbins : ℚ) / (hi - lo))

/-- Center of zero-based bin `i` (`TAxis::GetBinCenter(i+1)`). -/
def binCenter (nbins : Nat) (lo hi : ℚ) (i : Nat) : ℚ :=
  lo + ((i : ℚ) + 1 / 2) * (hi - lo) / (nbins : ℚ)

/-- Read a bin content array at an index, 0 outside (`GetBinContent`). -/
def nthD (l : List ℚ) (k : Nat) : ℚ :=
  match l, k with
  | [], _ => 0
  | x :: _, 0 => x
  | _ :: xs, k + 1 => nthD xs k

/-- Add a weight into one cell of a bin content array (`TH1::Fill`). -/
def bumpAt (k : Nat) (w : ℚ) : List ℚ → List ℚ
  | [] => []
  | x :: xs =>
    match k with
    | 0 => (x + w) :: xs
    | k + 1 => x :: bumpAt k w xs

/-- Histogram filling of `datai->createHistogram(..., RooFit::Binning(
m_reBin, obsVar->getMin(), obsVar->getMax()))` (splitter.cxx 256), per
the collaborator interface of spec section 6: every event adds its weight
to the bin of its first-observable value; events outside the axis range
go to the under/overflow bins, which are not part of the array. -/
def fillHist (nbins : Nat) (lo hi : ℚ) (events : List (ℚ × ℚ)) : List ℚ :=
  events.foldl
    (fun h e =>
      let b := binIndex nbins lo hi e.1
      if 0 ≤ b ∧ b < (nbins : Int) then bumpAt b.toNat e.2 h else h)
    (List.replicate nbins 0)

/-- Embedding of the histogram rebuild loop (splitter.cxx 260-266): for
every bin `i` of the histogram — non-empty or not — set the observable to
the bin center and add one event weighted by the bin content.  `events`
holds the source dataset as (first-observable value, weight) rows. -/
def rebinData (nbins : Nat) (lo hi : ℚ) (events : List (ℚ × ℚ)) :
    List (ℚ × ℚ) :=
  (List.range nbins).foldl
    (fun ds i =>
      ds ++ [(binCenter nbins lo hi i, nthD (fillHist nbins lo hi events) i)])
    []

/-! ## Position helper for substitution-order statements -/

/-- Position of the first occurrence of an element in a list (length of
the list when absent). -/
def posOf (a : String) : List String → Nat
  | [] => 0
  | b :: bs => if b = a then 0 else posOf a bs + 1

/-! ## Lemmas about the channel index parser -/

theorem mem_intRange (lo hi x : Int) :
    x ∈ intRange lo hi ↔ lo ≤ x ∧ x ≤ hi := by
  unfold intRange
  rw [List.mem_map]
  constructor
  · rintro ⟨k, hk, rfl⟩
    rw [List.mem_range] at hk
    omega
  · rintro ⟨h1, h2⟩
    refine ⟨(x - lo).toNat, ?_, ?_⟩
    · rw [List.mem_range]
      omega
    · omega

theorem intRange_pairwise (lo hi : Int) :
    List.Pairwise (fun a b : Int => a < b) (intRange lo hi) := by
  unfold intRange
  refine List.Pairwise.map _ ?_ (List.pairwise_lt_range (hi + 1 - lo).toNat)
  intro a b h
  omega

theorem fillIndices_foldl_error (toks : List String) (tok msg : String)
    (acc : List Int) (hmem : tok ∈ toks)
    (herr : parseToken tok = Except.error msg) :
    ∃ m, toks.foldlM
      (fun acc tok => (parseToken tok).map (fun l => acc ++ l)) acc
        = Except.error m := by
  induction toks generalizing acc with
  | nil => cases hmem
  | cons t ts ih =>
    rcases hpt : parseToken t with e | l
    · refine ⟨e, ?_⟩
      simp only [List.foldlM, hpt]
      rfl
    · rw [List.mem_cons] at hmem
      rcases hmem with rfl | hmem
      · rw [hpt] at herr
        exact Except.noConfusion herr
      · obtain ⟨m, hm⟩ := ih (acc ++ l) hmem
        refine ⟨m, ?_⟩
        simp only [List.foldlM, hpt]
        exact hm

/-- C4: a two-part range token `lo-hi` with lo > hi is a fatal error
(the `assert(int1 <= int2)` of splitter.cxx 148) and any token error
aborts the whole `fillIndices` run; a two-part token with lo ≤ hi
produces exactly the indices lo, lo+1, ..., hi in strictly increasing
order. -/
theorem C4_fillIndices_range :
    (∀ tok s1 s2 : String, tokenizeChar '-' tok = [s1, s2] →
        ¬ atoi s1 ≤ atoi s2 →
        parseToken tok = Except.error "assertion failed: int1 <= int2")
    ∧ (∀ tok s1 s2 : String, tokenizeChar '-' tok = [s1, s2] →
        atoi s1 ≤ atoi s2 →
        parseToken tok = Except.ok (intRange (atoi s1) (atoi s2))
          ∧ (∀ x : Int,
              x ∈ intRange (atoi s1) (atoi s2) ↔ atoi s1 ≤ x ∧ x ≤ atoi s2)
          ∧ List.Pairwise (fun a b : Int => a < b)
              (intRange (atoi s1) (atoi s2)))
    ∧ (∀ (numBins : Nat) (s tok msg : String),
        strToLower s ≠ "all" →
        tok ∈ tokenizeChar ',' (removeWhiteSpace (strToLower s)) →
        parseToken tok = Except.error msg →
        ∃ m, fillIndices numBins s = Except.error m)
    ∧ fillIndices 4 "3-1" = Except.error "assertion failed: int1 <= int2" := by
  refine ⟨?_, ?_, ?_, ?_⟩
  · intro tok s1 s2 htok hlt
    simp [parseToken, htok, hlt]
  · intro tok s1 s2 htok hle
    exact ⟨by simp [parseToken, htok, hle], fun x => mem_intRange _ _ x,
      intRange_pairwise _ _⟩
  · intro numBins s tok msg hall hmem herr
    unfold fillIndices
    rw [if_neg hall]
    exact fillIndices_foldl_error _ tok msg [] hmem herr
  · rfl

/-- Witness for C4 at the concrete token "3-1". -/
theorem C4_fillIndices_range_witness :
    parseToken "3-1" = Except.error "assertion failed: int1 <= int2" :=
  C4_fillIndices_range.1 "3-1" "3" "1" (by rfl) (by decide)

/-- C3 counterexample: the token "x" does not abort; it is parsed by
`atoi` to 0, so index 0 is added and the run succeeds. -/
theorem C3_fillIndices_cex : fillIndices 4 "x" = Except.ok [0] := by rfl

/-- C3 (amended): a comma-separated token that splits on dashes into a
number of parts other than one or two (for example "-" or "1-2-3") is the
fatal "Invalid syntax" error; a one-part token is parsed with `atoi`
semantics, so a non-integer token such as "x" is not an error and
contributes index 0. -/
theorem C3_fillIndices_amended :
    (∀ tok : String, (tokenizeChar '-' tok).length ≠ 1 →
        (tokenizeChar '-' tok).length ≠ 2 →
        parseToken tok = Except.error ("Invalid syntax " ++ tok))
    ∧ fillIndices 4 "x" = Except.ok [0]
    ∧ fillIndices 4 "-" = Except.error "Invalid syntax -" := by
  refine ⟨?_, by rfl, by rfl⟩
  intro tok h1 h2
  rcases htok : tokenizeChar '-' tok with _ | ⟨a, _ | ⟨b, _ | ⟨c, rest⟩⟩⟩
  · simp [parseToken, htok]
  · rw [htok] at h1
    simp at h1
  · rw [htok] at h2
    simp at h2
  · simp [parseToken, htok]

/-- Witness for C3 (amended) at the concrete token "-". -/
theorem C3_fillIndices_amended_witness :
    parseToken "-" = Except.error ("Invalid syntax " ++ "-") :=
  C3_fillIndices_amended.1 "-" (by decide) (by decide)

/-! ## Lemmas about the rebin dispatch -/

theorem cppTruncToInt_57_10 : cppTruncToInt (57 / 10) = 5 := by
  unfold cppTruncToInt
  rw [if_pos (by norm_num), Int.floor_eq_iff]
  constructor <;> norm_num

/-- C6 counterexample: a dataset with 5 entries and summed weight 5.7
differs from its summed weight (and 5 is not below the target 3), yet the
code does not take the direct path: the truncated comparison sees 5 = 5. -/
theorem C6_dataPath_cex :
    ((5 : Int) : ℚ) ≠ (57 : ℚ) / 10 ∧ ¬ ((5 : Int) < (3 : Int))
      ∧ dataPath 3 5 (57 / 10) ≠ DataPath.direct := by
  refine ⟨by norm_num, by decide, ?_⟩
  unfold dataPath
  rw [if_pos (by norm_num)]
  rw [if_neg]
  · exact fun h => DataPath.noConfusion h
  · rw [cppTruncToInt_57_10]
    push_neg
    exact ⟨rfl, by norm_num⟩

/-- C6 (amended): with a positive rebin target the direct-rebuild path is
taken exactly when the entry count differs from the summed weight
truncated toward zero to an integer, or the entry count is below the
target; with rebinning disabled the direct path is always taken. -/
theorem C6_dataPath_amended (reBin numEntries : Int) (sumW : ℚ) :
    (0 < reBin →
      (dataPath reBin numEntries sumW = DataPath.direct ↔
        (numEntries ≠ cppTruncToInt sumW ∨ numEntries < reBin)))
    ∧ (reBin ≤ 0 → dataPath reBin numEntries sumW = DataPath.direct) := by
  constructor
  · intro hpos
    unfold dataPath
    rw [if_pos hpos]
    by_cases hc : numEntries ≠ cppTruncToInt sumW ∨ numEntries < reBin
    · simp [hc]
    · simp [hc]
  · intro hneg
    unfold dataPath
    rw [if_neg (by omega)]

/-- Witness for C6 (amended): rebinning disabled forces the direct path. -/
theorem C6_dataPath_amended_witness :
    dataPath (-1) 5 (57 / 10) = DataPath.direct :=
  (C6_dataPath_amended (-1) 5 (57 / 10)).2 (by decide)

/-- C10: the summed weight is truncated to an integer before the
comparison, so a dataset whose summed weight differs from its entry count
only by a fraction that truncates away is not detected as already binned,
and is rebinned whenever its entry count reaches the target. -/
theorem C10_truncation_rebin (reBin numEntries : Int) (sumW : ℚ)
    (hfrac : sumW ≠ (numEntries : ℚ)) (htr : cppTruncToInt sumW = numEntries)
    (hpos : 0 < reBin) (hge : reBin ≤ numEntries) :
    dataPath reBin numEntries sumW = DataPath.rebin := by
  unfold dataPath
  rw [if_pos hpos, if_neg]
  push_neg
  exact ⟨htr.symm, by omega⟩

/-- Witness for C10 at 5 entries, summed weight 5.7, target 3 bins. -/
theorem C10_truncation_rebin_witness :
    dataPath 3 5 (57 / 10) = DataPath.rebin :=
  C10_truncation_rebin 3 5 (57 / 10) (by norm_num) cppTruncToInt_57_10
    (by decide) (by decide)

/-! ## Lemmas about the parameter classifier -/

theorem mem_addUnique (x y : String) (l : List String) :
    x ∈ addUnique y l ↔ x = y ∨ x ∈ l := by
  unfold addUnique
  by_cases hy : y ∈ l
  · rw [if_pos hy]
    constructor
    · exact Or.inr
    · rintro (rfl | hx)
      · exact hy
      · exact hx
  · rw [if_neg hy]
    rw [List.mem_append, List.mem_singleton]
    tauto

theorem roleSet_classifyStep (mc : MC) (acc : RoleSets) (p : String × Bool)
    (r : Role) :
    roleSet r (classifyStep mc acc p) =
      if classify mc p.1 p.2 = r ∧ r ≠ Role.dropped then
        addUnique p.1 (roleSet r acc)
      else
        roleSet r acc := by
  rcases hcl : classify mc p.1 p.2 <;> rcases r <;>
    simp [classifyStep, hcl, roleSet]

theorem roleSet_foldl_mem (mc : MC) (params : List (String × Bool))
    (acc : RoleSets) (n : String) (r : Role) :
    n ∈ roleSet r (params.foldl (classifyStep mc) acc) ↔
      n ∈ roleSet r acc ∨
        ∃ c, (n, c) ∈ params ∧ classify mc n c = r ∧ r ≠ Role.dropped := by
  induction params generalizing acc with
  | nil => simp
  | cons p ps ih =>
    rw [List.foldl_cons, ih, roleSet_classifyStep]
    by_cases hc : classify mc p.1 p.2 = r ∧ r ≠ Role.dropped
    · rw [if_pos hc, mem_addUnique]
      constructor
      · rintro ((rfl | hacc) | ⟨c, hcps, hcl, hr⟩)
        · exact Or.inr ⟨p.2, List.mem_cons_self p ps, hc.1, hc.2⟩
        · exact Or.inl hacc
        · exact Or.inr ⟨c, List.mem_cons_of_mem p hcps, hcl, hr⟩
      · rintro (hacc | ⟨c, hcps, hcl, hr⟩)
        · exact Or.inl (Or.inr hacc)
        · rw [List.mem_cons] at hcps
          rcases hcps with heq | hcps
          · exact Or.inl (Or.inl (congrArg Prod.fst heq))
          · exact Or.inr ⟨c, hcps, hcl, hr⟩
    · rw [if_neg hc]
      constructor
      · rintro (hacc | ⟨c, hcps, hcl, hr⟩)
        · exact Or.inl hacc
        · exact Or.inr ⟨c, List.mem_cons_of_mem p hcps, hcl, hr⟩
      · rintro (hacc | ⟨c, hcps, hcl, hr⟩)
        · exact Or.inl hacc
        · rw [List.mem_cons] at hcps
          rcases hcps with heq | hcps
          · exfalso
            apply hc
            have h1 : n = p.1 := congrArg Prod.fst heq
            have h2 : c = p.2 := congrArg Prod.snd heq
            rw [← h1, ← h2]
            exact ⟨hcl, hr⟩
          · exact Or.inr ⟨c, hcps, hcl, hr⟩

theorem pair_unique (params : List (String × Bool)) (n : String)
    (c1 c2 : Bool) (hnd : (params.map Prod.fst).Nodup)
    (h1 : (n, c1) ∈ params) (h2 : (n, c2) ∈ params) : c1 = c2 := by
  induction params with
  | nil => cases h1
  | cons p ps ih =>
    rw [List.map_cons, List.nodup_cons] at hnd
    rw [List.mem_cons] at h1 h2
    rcases h1 with h1 | h1 <;> rcases h2 with h2 | h2
    · rw [← h2] at h1
      exact congrArg Prod.snd h1
    · exfalso
      apply hnd.1
      rw [← congrArg Prod.fst h1]
      exact List.mem_map.mpr ⟨(n, c2), h2, rfl⟩
    · exfalso
      apply hnd.1
      rw [← congrArg Prod.fst h2]
      exact List.mem_map.mpr ⟨(n, c1), h1, rfl⟩
    · exact ih hnd.2 h1 h2

theorem roleSet_empty (r : Role) : roleSet r ⟨[], [], [], []⟩ = [] := by
  rcases r <;> rfl

/-- C7: every free parameter of a selected channel is assigned exactly
one of POI, global observable, conditional observable, nuisance or
dropped: membership in the four accumulated sets coincides with the
single role the classifier returns, the POI lookup wins over everything,
the conditional-observable lookup only happens when the original model
declares conditional observables, only non-constant unmatched parameters
become nuisance parameters, and constant unmatched parameters are dropped
from all four sets. -/
theorem C7_classifier (mc : MC) (params : List (String × Bool)) (n : String)
    (c : Bool) (hmem : (n, c) ∈ params)
    (hnd : (params.map Prod.fst).Nodup) :
    ((n ∈ (splitRoles mc params).subPoi ↔ classify mc n c = Role.poi)
      ∧ (n ∈ (splitRoles mc params).subGobs ↔ classify mc n c = Role.gobs)
      ∧ (n ∈ (splitRoles mc params).subCobs ↔ classify mc n c = Role.cobs)
      ∧ (n ∈ (splitRoles mc params).subNuis ↔ classify mc n c = Role.nuis))
    ∧ (n ∈ mc.pois → classify mc n c = Role.poi)
    ∧ (mc.condObs = none → classify mc n c ≠ Role.cobs)
    ∧ (classify mc n c = Role.nuis → c = false ∧ n ∉ mc.pois ∧ n ∉ mc.gobs)
    ∧ (c = true → n ∉ mc.pois → n ∉ mc.gobs →
        (∀ cobs, mc.condObs = some cobs → n ∉ cobs) →
        classify mc n c = Role.dropped
          ∧ n ∉ (splitRoles mc params).subPoi
          ∧ n ∉ (splitRoles mc params).subGobs
          ∧ n ∉ (splitRoles mc params).subCobs
          ∧ n ∉ (splitRoles mc params).subNuis) := by
  have hrole : ∀ r : Role, n ∈ roleSet r (splitRoles mc params) ↔
      (classify mc n c = r ∧ r ≠ Role.dropped) := by
    intro r
    unfold splitRoles
    rw [roleSet_foldl_mem, roleSet_empty]
    constructor
    · rintro (habs | ⟨c2, hc2, hcl, hr⟩)
      · cases habs
      · rw [pair_unique params n c c2 hnd hmem hc2]
        exact ⟨hcl, hr⟩
    · rintro ⟨hcl, hr⟩
      exact Or.inr ⟨c, hmem, hcl, hr⟩
  refine ⟨⟨?_, ?_, ?_, ?_⟩, ?_, ?_, ?_, ?_⟩
  · exact (hrole Role.poi).trans (by simp)
  · exact (hrole Role.gobs).trans (by simp)
  · exact (hrole Role.cobs).trans (by simp)
  · exact (hrole Role.nuis).trans (by simp)
  · intro hp
    simp [classify, hp]
  · intro hnone
    unfold classify
    rw [hnone]
    split_ifs <;> simp
  · intro hnuis
    unfold classify at hnuis
    by_cases hp : n ∈ mc.pois
    · rw [if_pos hp] at hnuis
      cases hnuis
    · rw [if_neg hp] at hnuis
      by_cases hg : n ∈ mc.gobs
      · rw [if_pos hg] at hnuis
        cases hnuis
      · rw [if_neg hg] at hnuis
        refine ⟨?_, hp, hg⟩
        rcases hcov : mc.condObs with _ | cobs <;> rw [hcov] at hnuis
        · by_cases hct : c = true
          · rw [if_pos hct] at hnuis
            cases hnuis
          · simpa using hct
        · simp only []  at hnuis
          by_cases hin : n ∈ cobs
          · rw [if_pos hin] at hnuis
            cases hnuis
          · rw [if_neg hin] at hnuis
            by_cases hct : c = true
            · rw [if_pos hct] at hnuis
              cases hnuis
            · simpa using hct
  · intro hc hp hg hco
    have hdrop : classify mc n c = Role.dropped := by
      unfold classify
      rw [if_neg hp, if_neg hg]
      rcases hcov : mc.condObs with _ | cobs
      · simp [hc]
      · simp [hco cobs hcov, hc]
    refine ⟨hdrop, ?_, ?_, ?_, ?_⟩
    · intro hmem2
      have h2 := (hrole Role.poi).mp hmem2
      rw [hdrop] at h2
      cases h2.1
    · intro hmem2
      have h2 := (hrole Role.gobs).mp hmem2
      rw [hdrop] at h2
      cases h2.1
    · intro hmem2
      have h2 := (hrole Role.cobs).mp hmem2
      rw [hdrop] at h2
      cases h2.1
    · intro hmem2
      have h2 := (hrole Role.nuis).mp hmem2
      rw [hdrop] at h2
      cases h2.1

/-- Witness for C7 on a concrete four-parameter channel. -/
theorem C7_classifier_witness :
    "nu" ∈ (splitRoles ⟨["mu"], ["g1"], some ["tc"]⟩
        [("mu", false), ("g1", true), ("nu", false), ("kc", true)]).subNuis ↔
      classify ⟨["mu"], ["g1"], some ["tc"]⟩ "nu" false = Role.nuis :=
  (C7_classifier ⟨["mu"], ["g1"], some ["tc"]⟩
    [("mu", false), ("g1", true), ("nu", false), ("kc", true)] "nu" false
    (by decide) (by decide)).1.2.2.2

/-! ## Lemmas about the formula rewriter -/

/-- C8: a formula whose expression text already contains the positional
reference character is returned unchanged (the NULL "no change" result),
whatever the configured edit mode. -/
theorem C8_editRFV_nochange (mode : Int) (varName formExpr : String)
    (deps : List Arg) (h : strContainsChar formExpr '@' = true) :
    editRFV mode varName formExpr deps = Except.ok none := by
  unfold editRFV
  simp only [editRFVGo, h]
  rfl

/-- Witness for C8 on an already-positional expression under mode 2. -/
theorem C8_editRFV_nochange_witness :
    editRFV 2 "f" "@0+@1" [Arg.var "a"] = Except.ok none :=
  C8_editRFV_nochange 2 "f" "@0+@1" [Arg.var "a"] (by rfl)

/-- C1 (code bug): a parent formula with an already-positional nested
formula dependent makes the recursive rewrite return NULL, and the
dependent walk of splitter.cxx 549-562 dereferences that NULL instead of
keeping the original dependent. -/
theorem C1_editRFV_null_deref :
    editRFV 1 "p" "@0*2" [Arg.var "x"] = Except.ok none
    ∧ editRFV 1 "f" "p+q" [Arg.fvar "p" "@0*2" [Arg.var "x"], Arg.var "q"]
        = Except.error
            "null dereference: varList.add applied to a NULL newParg" := by
  constructor
  · have hsz : argsSize [Arg.var "x"] = 2 := by
      simp [argsSize, argSize]
    simp only [editRFV, hsz]
    rfl
  · have hsz : argsSize [Arg.fvar "p" "@0*2" [Arg.var "x"], Arg.var "q"]
        = 6 := by
      simp [argsSize, argSize]
    simp only [editRFV, hsz]
    rfl

theorem mem_insertDescLen (x a : String × String)
    (l : List (String × String)) :
    x ∈ insertDescLen a l ↔ x = a ∨ x ∈ l := by
  induction l with
  | nil => simp [insertDescLen]
  | cons y ys ih =>
    unfold insertDescLen
    by_cases hcond : y.1.length ≤ a.1.length
    · rw [if_pos hcond]
      simp [List.mem_cons]
    · rw [if_neg hcond]
      rw [List.mem_cons, ih, List.mem_cons]
      tauto

theorem mem_sortDescLen (x : String × String) (l : List (String × String)) :
    x ∈ sortDescLen l ↔ x ∈ l := by
  induction l with
  | nil => simp [sortDescLen]
  | cons a as ih =>
    unfold sortDescLen
    rw [mem_insertDescLen, ih, List.mem_cons]

theorem pairwise_insertDescLen (a : String × String)
    (l : List (String × String))
    (hl : List.Pairwise (fun p q : String × String =>
      q.1.length ≤ p.1.length) l) :
    List.Pairwise (fun p q : String × String => q.1.length ≤ p.1.length)
      (insertDescLen a l) := by
  induction l with
  | nil => simp [insertDescLen]
  | cons y ys ih =>
    unfold insertDescLen
    rw [List.pairwise_cons] at hl
    by_cases hcond : y.1.length ≤ a.1.length
    · rw [if_pos hcond, List.pairwise_cons]
      refine ⟨?_, List.pairwise_cons.mpr hl⟩
      intro z hz
      rw [List.mem_cons] at hz
      rcases hz with rfl | hz
      · exact hcond
      · exact le_trans (hl.1 z hz) hcond
    · rw [if_neg hcond, List.pairwise_cons]
      refine ⟨?_, ih hl.2⟩
      intro z hz
      rw [mem_insertDescLen] at hz
      rcases hz with rfl | hz
      · omega
      · exact hl.1 z hz

theorem pairwise_sortDescLen (l : List (String × String)) :
    List.Pairwise (fun p q : String × String => q.1.length ≤ p.1.length)
      (sortDescLen l) := by
  induction l with
  | nil => simp [sortDescLen]
  | cons a as ih => exact pairwise_insertDescLen a (sortDescLen as) ih

theorem renamePairsFrom_map_fst (i : Nat) (l : List String) :
    (renamePairsFrom i l).map Prod.fst = l := by
  induction l generalizing i with
  | nil => rfl
  | cons n ns ih => simp [renamePairsFrom, ih]

theorem renamePairsFrom_get_mem (l : List String) (i k : Nat)
    (hk : k < l.length) :
    (l.get ⟨k, hk⟩, "@" ++ toString (i + k)) ∈ renamePairsFrom i l := by
  induction l generalizing i k with
  | nil => exact absurd hk (by simp)
  | cons n ns ih =>
    cases k with
    | zero => simp [renamePairsFrom]
    | succ k2 =>
      have harith : i + (k2 + 1) = (i + 1) + k2 := by omega
      have hk2 : k2 < ns.length := by simpa using hk
      have hmem := ih (i + 1) k2 hk2
      rw [harith]
      exact List.mem_cons_of_mem _ hmem

theorem lookupLast_skip (m : List (String × String)) (k a : String)
    (hk : ∀ p ∈ m, p.1 ≠ k) :
    m.foldl (fun acc p => if p.1 = k then p.2 else acc) a = a := by
  induction m generalizing a with
  | nil => rfl
  | cons p ps ih =>
    rw [List.foldl_cons, if_neg (hk p (List.mem_cons_self p ps))]
    exact ih a (fun q hq => hk q (List.mem_cons_of_mem p hq))

theorem lookupLast_go (m : List (String × String)) (k v : String)
    (hnd : (m.map Prod.fst).Nodup) (hmem : (k, v) ∈ m) (a : String) :
    m.foldl (fun acc p => if p.1 = k then p.2 else acc) a = v := by
  induction m generalizing a with
  | nil => cases hmem
  | cons p ps ih =>
    rw [List.map_cons, List.nodup_cons] at hnd
    rw [List.mem_cons] at hmem
    rw [List.foldl_cons]
    rcases hmem with heq | hmem
    · have h1 : p.1 = k := (congrArg Prod.fst heq).symm
      have h2 : p.2 = v := (congrArg Prod.snd heq).symm
      rw [if_pos h1, h2]
      apply lookupLast_skip
      intro q hq hqk
      apply hnd.1
      rw [h1]
      exact List.mem_map.mpr ⟨q, hq, hqk⟩
    · have h1 : p.1 ≠ k := by
        intro hpk
        apply hnd.1
        rw [hpk]
        exact List.mem_map.mpr ⟨(k, v), hmem, rfl⟩
      rw [if_neg h1]
      exact ih hnd.2 hmem a

theorem lookupLast_mem_nodup (m : List (String × String)) (k v : String)
    (hnd : (m.map Prod.fst).Nodup) (hmem : (k, v) ∈ m) :
    lookupLast m k = v :=
  lookupLast_go m k v hnd hmem ""

theorem posOf_lt_of_sorted (l : List String) (a b : String)
    (hs : List.Pairwise (fun x y : String => y.length ≤ x.length) l)
    (ha : a ∈ l) (hb : b ∈ l) (hlt : b.length < a.length) :
    posOf a l < posOf b l := by
  induction l with
  | nil => cases ha
  | cons c cs ih =>
    rw [List.pairwise_cons] at hs
    unfold posOf
    by_cases hca : c = a
    · rw [if_pos hca]
      have hcb : ¬ c = b := by
        intro h
        rw [← hca, ← h] at hlt
        omega
      rw [if_neg hcb]
      omega
    · rw [if_neg hca]
      have ha2 : a ∈ cs := by
        rcases List.mem_cons.mp ha with h | h
        · exact absurd h.symm hca
        · exact h
      by_cases hcb : c = b
      · exfalso
        have hle := hs.1 a ha2
        rw [hcb] at hle
        omega
      · rw [if_neg hcb]
        have hb2 : b ∈ cs := by
          rcases List.mem_cons.mp hb with h | h
          · exact absurd h.symm hcb
          · exact h
        have := ih hs.2 ha2 hb2
        omega

theorem rawSubstList_map_fst (deps : List Arg) :
    (rawSubstList deps).map Prod.fst =
      (sortDescLen (renamePairsFrom 0 (deps.map argName))).map Prod.fst := by
  unfold rawSubstList
  rw [List.map_map]
  rfl

/-- C2: in the raw-name branch the dependent at index i receives the
positional label @i, the substitutions are applied in descending
name-length order, so a name that is a proper substring of another is
always replaced after it, and the worked example "ab+abc" over dependents
a, ab, abc rewrites to "@1+@2" with no corrupted partial replacement. -/
theorem C2_editRFV_subst_order (deps : List Arg) (n1 n2 : String) (i : Nat)
    (hidx : i < (deps.map argName).length)
    (h1 : n1 ∈ deps.map argName) (h2 : n2 ∈ deps.map argName)
    (hsub : n1.data <:+: n2.data) (hne : n1 ≠ n2)
    (hnd : (deps.map argName).Nodup) :
    posOf n2 ((rawSubstList deps).map Prod.fst)
        < posOf n1 ((rawSubstList deps).map Prod.fst)
    ∧ ((deps.map argName).get ⟨i, hidx⟩, "@" ++ toString i) ∈ rawSubstList deps
    ∧ editRFV 1 "f" "ab+abc" [Arg.var "a", Arg.var "ab", Arg.var "abc"]
        = Except.ok (some (Arg.fvar "f" "@1+@2"
            [Arg.var "a", Arg.var "ab", Arg.var "abc"])) := by
  refine ⟨?_, ?_, ?_⟩
  · have hlen : n1.length < n2.length := by
      have hle : n1.data.length ≤ n2.data.length := hsub.length_le
      rcases lt_or_eq_of_le hle with h | h
      · exact h
      · exfalso
        apply hne
        have hdata := hsub.sublist.eq_of_length h
        cases n1
        cases n2
        exact congrArg String.mk (by simpa using hdata)
    have hsorted : List.Pairwise (fun x y : String => y.length ≤ x.length)
        ((rawSubstList deps).map Prod.fst) := by
      rw [rawSubstList_map_fst]
      refine List.Pairwise.map _ ?_ (pairwise_sortDescLen _)
      intro p q h
      exact h
    have hmm : ∀ nn : String, nn ∈ deps.map argName →
        nn ∈ (rawSubstList deps).map Prod.fst := by
      intro nn hnn
      rw [rawSubstList_map_fst, List.mem_map]
      have hnn2 : nn ∈ (renamePairsFrom 0 (deps.map argName)).map Prod.fst := by
        rw [renamePairsFrom_map_fst]
        exact hnn
      rcases List.mem_map.mp hnn2 with ⟨p, hp, hpf⟩
      exact ⟨p, (mem_sortDescLen p _).mpr hp, hpf⟩
    exact posOf_lt_of_sorted _ n2 n1 hsorted (hmm n2 h2) (hmm n1 h1) hlen
  · have hp : ((deps.map argName).get ⟨i, hidx⟩, "@" ++ toString (0 + i)) ∈
        renamePairsFrom 0 (deps.map argName) :=
      renamePairsFrom_get_mem (deps.map argName) 0 i hidx
    rw [Nat.zero_add] at hp
    unfold rawSubstList
    rw [List.mem_map]
    refine ⟨((deps.map argName).get ⟨i, hidx⟩, "@" ++ toString i),
      (mem_sortDescLen _ _).mpr hp, ?_⟩
    have hlook : lookupLast (renamePairsFrom 0 (deps.map argName))
        ((deps.map argName).get ⟨i, hidx⟩) = "@" ++ toString i := by
      apply lookupLast_mem_nodup
      · rw [renamePairsFrom_map_fst]
        exact hnd
      · exact hp
    simp only [List.get_eq_getElem, List.getElem_map] at hlook ⊢
    simp [hlook]
  · have hsz : argsSize [Arg.var "a", Arg.var "ab", Arg.var "abc"] = 6 := by
      simp [argsSize, argSize]
    simp only [editRFV, hsz]
    rfl

/-- Witness for C2: over dependents a, ab, abc the substitution for "abc"
precedes the substitution for its proper substring "ab". -/
theorem C2_editRFV_subst_order_witness :
    posOf "abc" ((rawSubstList
        [Arg.var "a", Arg.var "ab", Arg.var "abc"]).map Prod.fst)
      < posOf "ab" ((rawSubstList
        [Arg.var "a", Arg.var "ab", Arg.var "abc"]).map Prod.fst) :=
  (C2_editRFV_subst_order [Arg.var "a", Arg.var "ab", Arg.var "abc"]
    "ab" "abc" 1 (by decide) (by decide) (by decide) (by decide) (by decide)
    (by decide)).1

/-! ## Lemmas about the dataset rebuild -/

/-- C9: the direct rebuild emits one weighted event per source event with
the source weight carried forward unchanged, so the summed weight of the
rebuilt dataset equals the summed weight of the source dataset. -/
theorem C9_rebuildCatData_weights (obsNames : List String)
    (datai : List (List (String × ℚ) × ℚ)) (j : Nat)
    (hj : j < (rebuildCatData obsNames datai).length)
    (hj2 : j < datai.length) :
    (rebuildCatData obsNames datai).length = datai.length
    ∧ ((rebuildCatData obsNames datai).get ⟨j, hj⟩).2
        = (datai.get ⟨j, hj2⟩).2
    ∧ sumWeights (rebuildCatData obsNames datai) = sumWeights datai := by
  refine ⟨?_, ?_, ?_⟩
  · simp [rebuildCatData]
  · simp [rebuildCatData, List.get_eq_getElem, List.getElem_map]
  · unfold sumWeights rebuildCatData
    rw [List.map_map]
    rfl

/-- Witness for C9 on a concrete two-event weighted dataset. -/
theorem C9_rebuildCatData_weights_witness :
    sumWeights (rebuildCatData ["x"]
        [([("x", 1)], 2), ([("x", 3)], 5 / 2)])
      = sumWeights [([("x", (1 : ℚ))], (2 : ℚ)), ([("x", 3)], 5 / 2)] :=
  (C9_rebuildCatData_weights ["x"] [([("x", 1)], 2), ([("x", 3)], 5 / 2)] 0
    (by simp [rebuildCatData]) (by simp)).2.2

/-! ## Lemmas about the histogram rebuild -/

theorem foldl_append_singleton (l : List α) (f : α → β) (init : List β) :
    l.foldl (fun ds i => ds ++ [f i]) init = init ++ l.map f := by
  induction l generalizing init with
  | nil => simp
  | cons a as ih => simp [ih]

theorem rebinData_eq_map (nbins : Nat) (lo hi : ℚ)
    (events : List (ℚ × ℚ)) :
    rebinData nbins lo hi events = (List.range nbins).map
      (fun i => (binCenter nbins lo hi i,
        nthD (fillHist nbins lo hi events) i)) := by
  unfold rebinData
  rw [foldl_append_singleton]
  rfl

theorem rebinData_length (nbins : Nat) (lo hi : ℚ)
    (events : List (ℚ × ℚ)) :
    (rebinData nbins lo hi events).length = nbins := by
  rw [rebinData_eq_map]
  simp

theorem bumpAt_length (k : Nat) (w : ℚ) (l : List ℚ) :
    (bumpAt k w l).length = l.length := by
  induction l generalizing k with
  | nil => simp [bumpAt]
  | cons x xs ih =>
    cases k with
    | zero => rfl
    | succ k2 => simp [bumpAt, ih]

theorem nthD_bumpAt_self (k : Nat) (w : ℚ) (l : List ℚ)
    (hk : k < l.length) :
    nthD (bumpAt k w l) k = nthD l k + w := by
  induction l generalizing k with
  | nil => exact absurd hk (by simp)
  | cons x xs ih =>
    cases k with
    | zero => rfl
    | succ k2 =>
      have hk2 : k2 < xs.length := by simpa using hk
      simpa [bumpAt, nthD] using ih k2 hk2

theorem nthD_bumpAt_ne (k j : Nat) (w : ℚ) (l : List ℚ) (hkj : k ≠ j) :
    nthD (bumpAt k w l) j = nthD l j := by
  induction l generalizing k j with
  | nil => simp [bumpAt]
  | cons x xs ih =>
    cases k with
    | zero =>
      cases j with
      | zero => exact absurd rfl hkj
      | succ j2 => rfl
    | succ k2 =>
      cases j with
      | zero => rfl
      | succ j2 => simpa [bumpAt, nthD] using ih k2 j2 (by omega)

theorem nthD_replicate (n i : Nat) : nthD (List.replicate n 0) i = 0 := by
  induction n generalizing i with
  | zero => rfl
  | succ n2 ih =>
    cases i with
    | zero => rfl
    | succ i2 => simpa [List.replicate_succ, nthD] using ih i2

theorem nthD_fillHist_go (nbins : Nat) (lo hi : ℚ) (i : Nat)
    (hi2 : i < nbins) (events : List (ℚ × ℚ)) (h0 : List ℚ)
    (hlen : h0.length = nbins) :
    nthD (events.foldl
      (fun h e =>
        let b := binIndex nbins lo hi e.1
        if 0 ≤ b ∧ b < (nbins : Int) then bumpAt b.toNat e.2 h else h)
      h0) i
      = nthD h0 i +
        ((events.filter
          (fun e => binIndex nbins lo hi e.1 = (i : Int))).map Prod.snd).sum := by
  induction events generalizing h0 with
  | nil => simp
  | cons e es ih =>
    rw [List.foldl_cons, List.filter_cons]
    by_cases hb : binIndex nbins lo hi e.1 = (i : Int)
    · have hcond : 0 ≤ binIndex nbins lo hi e.1
          ∧ binIndex nbins lo hi e.1 < (nbins : Int) := by
        rw [hb]
        constructor <;> omega
      have hstep : (let b := binIndex nbins lo hi e.1
          if 0 ≤ b ∧ b < (nbins : Int) then bumpAt b.toNat e.2 h0 else h0)
          = bumpAt i e.2 h0 := by
        rw [if_pos hcond, hb]
        rfl
      rw [hstep,
        ih (bumpAt i e.2 h0) (by rw [bumpAt_length, hlen]),
        nthD_bumpAt_self i e.2 h0 (by rw [hlen]; exact hi2),
        if_pos (by simp [hb])]
      simp only [List.map_cons, List.sum_cons]
      ring
    · by_cases hcond : 0 ≤ binIndex nbins lo hi e.1
          ∧ binIndex nbins lo hi e.1 < (nbins : Int)
      · have hne : (binIndex nbins lo hi e.1).toNat ≠ i := by omega
        have hstep : (let b := binIndex nbins lo hi e.1
            if 0 ≤ b ∧ b < (nbins : Int) then bumpAt b.toNat e.2 h0 else h0)
            = bumpAt (binIndex nbins lo hi e.1).toNat e.2 h0 := by
          rw [if_pos hcond]
        rw [hstep,
          ih (bumpAt (binIndex nbins lo hi e.1).toNat e.2 h0)
            (by rw [bumpAt_length, hlen]),
          nthD_bumpAt_ne _ _ _ _ hne, if_neg (by simp [hb])]
      · have hstep : (let b := binIndex nbins lo hi e.1
            if 0 ≤ b ∧ b < (nbins : Int) then bumpAt b.toNat e.2 h0 else h0)
            = h0 := by
          rw [if_neg hcond]
        rw [hstep, ih h0 hlen, if_neg (by simp [hb])]

/-- C5 (amended): when the rebin path is taken, the rebuilt dataset holds
exactly one weighted event per histogram bin — empty bins included, with
weight zero — whose value is the bin center and whose weight is the bin
content, i.e. the summed weight of the source events falling in that
bin. -/
theorem C5_rebinData_amended (nbins : Nat) (lo hi : ℚ)
    (events : List (ℚ × ℚ)) (i : Nat)
    (hi2 : i < (rebinData nbins lo hi events).length) :
    (rebinData nbins lo hi events).length = nbins
    ∧ (rebinData nbins lo hi events).get ⟨i, hi2⟩
        = (binCenter nbins lo hi i,
          ((events.filter
            (fun e => binIndex nbins lo hi e.1 = (i : Int))).map
              Prod.snd).sum) := by
  refine ⟨rebinData_length nbins lo hi events, ?_⟩
  have hi3 : i < nbins := by
    rw [← rebinData_length nbins lo hi events]
    exact hi2
  have hget : (rebinData nbins lo hi events).get ⟨i, hi2⟩
      = (binCenter nbins lo hi i, nthD (fillHist nbins lo hi events) i) := by
    simp [rebinData_eq_map, List.get_eq_getElem]
  rw [hget]
  have hsum : nthD (fillHist nbins lo hi events) i
      = ((events.filter
          (fun e => binIndex nbins lo hi e.1 = (i : Int))).map
            Prod.snd).sum := by
    unfold fillHist
    rw [nthD_fillHist_go nbins lo hi i hi3 events (List.replicate nbins 0)
      (by simp), nthD_replicate, zero_add]
  rw [hsum]

theorem binIndex_half : binIndex 2 0 2 ((1 : ℚ)/2) = 0 := by
  unfold binIndex
  norm_num

theorem fillHist_single : fillHist 2 0 2 [((1 : ℚ)/2, 1)] = [1, 0] := by
  unfold fillHist
  rw [List.foldl_cons, List.foldl_nil]
  rw [show (List.replicate 2 (0 : ℚ)) = [0, 0] from rfl]
  simp only [binIndex_half]
  rw [if_pos (by omega)]
  show bumpAt (Int.toNat 0) 1 [0, 0] = [1, 0]
  norm_num [bumpAt]

/-- C5 counterexample: two bins over the range 0 to 2 with a single event
at 0.5 give a histogram with exactly one non-empty bin, yet the rebuilt
dataset holds two events — one per bin, including the empty bin with
weight zero. -/
theorem C5_rebinData_cex :
    rebinData 2 0 2 [((1 : ℚ)/2, 1)] = [((1 : ℚ)/2, 1), ((3 : ℚ)/2, 0)]
    ∧ ((fillHist 2 0 2 [((1 : ℚ)/2, 1)]).filter
        (fun w => decide (w ≠ 0))).length = 1
    ∧ (rebinData 2 0 2 [((1 : ℚ)/2, 1)]).length = 2 := by
  have hc0 : binCenter 2 0 2 0 = (1 : ℚ)/2 := by
    unfold binCenter
    norm_num
  have hc1 : binCenter 2 0 2 1 = (3 : ℚ)/2 := by
    unfold binCenter
    norm_num
  refine ⟨?_, ?_, rebinData_length 2 0 2 _⟩
  · rw [rebinData_eq_map]
    rw [show List.range 2 = [0, 1] from rfl]
    rw [List.map_cons, List.map_cons, List.map_nil]
    rw [hc0, hc1, fillHist_single]
    rfl
  · rw [fillHist_single]
    norm_num

/-- Witness for C5 (amended) on the first bin of the concrete rebuild. -/
theorem C5_rebinData_amended_witness :
    (rebinData 2 0 2 [((1 : ℚ)/2, 1)]).get
        ⟨0, by rw [rebinData_length]; omega⟩
      = (binCenter 2 0 2 0,
        (([((1 : ℚ)/2, (1 : ℚ))].filter
          (fun e => binIndex 2 0 2 e.1 = (0 : Int))).map Prod.snd).sum) :=
  (C5_rebinData_amended 2 0 2 [((1 : ℚ)/2, 1)] 0
    (by rw [rebinData_length]; omega)).2

end Splitter
